import Mathlib

/-!
Verification of the fetch-expresso core (src/ResponseAccumulator.ts,
src/RequestLike.ts, Context.ts) as a shallow embedding in Lean 4.

The embedding models the two platform collaborators the code uses exactly as
far as the code exercises them:

* the WHATWG `Headers` object is a list of (name, value) pairs whose names are
  stored lower-cased; `set` is last-write-wins per (case-insensitive) name and
  `get` lower-cases its argument before lookup;
* a `ReadableStream` is identified by an opaque handle id (a `Nat`): two
  streams are the same object exactly when their ids are equal, which lets the
  pure embedding speak about reference identity;
* `JSON.stringify` / `JSON.parse` are modelled over an inductive `Json` value
  type (JS numbers restricted to integers) further below;
* `new Response(body, {status, headers})` snapshots status, headers and body.

JS exceptions are modelled with `Except String`: a method that throws returns
`.error msg`.  In the source every throwing method calls `assertWritable()`
before any mutation, so a thrown call leaves the accumulator exactly as it
was; `runOp` below makes that explicit.
-/

deriving instance DecidableEq for Except

/-- JS `String.prototype.toLowerCase` restricted to ASCII (all header names and
values in play are ASCII). -/
def lowChar (c : Char) : Char :=
  if 'A' ≤ c ∧ c ≤ 'Z' then Char.ofNat (c.toNat + 32) else c

/-- ASCII lower-casing of a string. -/
def lowerStr (s : String) : String :=
  String.mk (s.data.map lowChar)

/-- WHATWG `Headers`: association list, names stored lower-cased. -/
def HeadersM : Type := List (String × String)

instance : DecidableEq HeadersM := by
  unfold HeadersM; infer_instance

/-- Model of `Headers.prototype.set`: replace the value of an existing
case-insensitively matching name in place, otherwise append. -/
def hset (h : HeadersM) (name value : String) : HeadersM :=
  let key := lowerStr name
  match h with
  | [] => [(key, value)]
  | (k, v) :: rest =>
      if k = key then (k, value) :: rest else (k, v) :: hset rest name value

/-- Model of `Headers.prototype.get`: case-insensitive lookup, `none` for JS `null`. -/
def hget (h : HeadersM) (name : String) : Option String :=
  let key := lowerStr name
  match h with
  | [] => none
  | (k, v) :: rest => if k = key then some v else hget rest name

/-- Model of `BodyInit` as the source exercises it: a text payload (strings,
`JSON.stringify` output) or a `ReadableStream` identified by its handle id. -/
inductive BodyInit where
  | text : String → BodyInit
  | stream : Nat → BodyInit
deriving DecidableEq, Repr

/-- The immutable `Response` produced by `finalize()`: a snapshot of status,
headers and body (`new Response(this._body, {status, headers})`). -/
structure ResponseM where
  status : Nat
  headers : HeadersM
  body : Option BodyInit
deriving DecidableEq

/-- The mutable accumulator state (fields of class `ResAccumulator`). -/
structure ResAccumulator where
  _status : Nat := 200
  _headers : HeadersM := []
  _body : Option BodyInit := none
  _finalized : Bool := false
deriving DecidableEq

namespace ResAccumulator

/-- The message of the error thrown by `assertWritable`. -/
def finalizedMsg : String := "Response has already been finalized"

/-- Source `assertWritable()`: throw if `_finalized`. -/
def assertWritable (r : ResAccumulator) : Except String Unit :=
  if r._finalized then .error finalizedMsg else .ok ()

/-- Source `status(code)`. -/
def status (r : ResAccumulator) (code : Nat) : Except String ResAccumulator := do
  r.assertWritable
  return { r with _status := code }

/-- Source `getStatus()`. -/
def getStatus (r : ResAccumulator) : Nat := r._status

/-- Source `set(name, value)`. -/
def set (r : ResAccumulator) (name value : String) : Except String ResAccumulator := do
  r.assertWritable
  return { r with _headers := hset r._headers name value }

/-- Source `headers(headers)`: `for (const [key, value] of Object.entries(headers))
this._headers.set(key, value)`.  The entries of the JS record are modelled as
a list in the iteration order of the record. -/
def headers (r : ResAccumulator) (hs : List (String × String)) :
    Except String ResAccumulator := do
  r.assertWritable
  return { r with _headers := hs.foldl (fun acc p => hset acc p.1 p.2) r._headers }

/-- Source `getHeader(name)`. -/
def getHeader (r : ResAccumulator) (name : String) : Option String :=
  hget r._headers name

/-- Source `type(mime)`. -/
def type (r : ResAccumulator) (mime : String) : Except String ResAccumulator := do
  r.assertWritable
  return { r with _headers := hset r._headers "Content-Type" mime }

/-- Source `finalize()`: assert writable, set `_finalized = true`, snapshot a
`Response` from the current status/headers/body. -/
def finalize (r : ResAccumulator) : Except String (ResAccumulator × ResponseM) := do
  r.assertWritable
  let r' := { r with _finalized := true }
  return (r', { status := r'._status, headers := r'._headers, body := r'._body })

/-- Source `send(body)`. -/
def send (r : ResAccumulator) (body : BodyInit) :
    Except String (ResAccumulator × ResponseM) := do
  r.assertWritable
  let r' := { r with _body := some body }
  r'.finalize

/-- Source `stream(stream)`. -/
def stream (r : ResAccumulator) (s : Nat) :
    Except String (ResAccumulator × ResponseM) := do
  r.assertWritable
  let r' := { r with _body := some (BodyInit.stream s) }
  r'.finalize

/-- Source `redirect(url, status = 302)`. -/
def redirect (r : ResAccumulator) (url : String) (code : Option Nat) :
    Except String (ResAccumulator × ResponseM) := do
  r.assertWritable
  let st := code.getD 302
  let r' := { r with
    _status := st
    _headers := hset r._headers "Location" url
    _body := none }
  r'.finalize

/-- Source `isFinalized()`. -/
def isFinalized (r : ResAccumulator) : Bool := r._finalized

/-- Source `getHeaders()` returns `new Headers(this._headers)`; as a pure value the
clone has the same entries.  (Object identity is treated by the store model
further below.) -/
def getHeaders (r : ResAccumulator) : HeadersM := r._headers

end ResAccumulator

/-- One call against the accumulator, with its arguments (`json` is added to
this type after the `Json` model below via the `jsonStr` argument of `applyOp`:
`json data` first stringifies, so at the state level it is `send`-like with a
forced `Content-Type`; we give it the already-stringified payload here). -/
inductive Op where
  | status (code : Nat)
  | set (name value : String)
  | headers (hs : List (String × String))
  | type (mime : String)
  | send (body : BodyInit)
  | json (payload : String)
  | stream (s : Nat)
  | redirect (url : String) (code : Option Nat)
  | finalize
deriving DecidableEq, Repr

/-- The ops that set the body and finalize. -/
def Op.isFinalizing : Op → Bool
  | .send _ | .json _ | .stream _ | .redirect _ _ | .finalize => true
  | _ => false

/-- Source `json(data)` at the state level: the source sets
`Content-Type: application/json`, sets `_body = JSON.stringify(data)` and
finalizes.  `payload` is the stringified data. -/
def ResAccumulator.jsonStr (r : ResAccumulator) (payload : String) :
    Except String (ResAccumulator × ResponseM) := do
  r.assertWritable
  let r' := { r with
    _headers := hset r._headers "Content-Type" "application/json"
    _body := some (BodyInit.text payload) }
  r'.finalize

/-- Dispatch an `Op`, keeping the successor state (the `Response` a finalizer
returns is dropped; it is examined by the per-operation theorems). -/
def applyOp (r : ResAccumulator) : Op → Except String ResAccumulator
  | .status c => r.status c
  | .set n v => r.set n v
  | .headers hs => r.headers hs
  | .type m => r.type m
  | .send b => (r.send b).map Prod.fst
  | .json p => (r.jsonStr p).map Prod.fst
  | .stream s => (r.stream s).map Prod.fst
  | .redirect u c => (r.redirect u c).map Prod.fst
  | .finalize => r.finalize.map Prod.fst

/-- The state of the accumulator object after a call: a successful call leaves
the successor state, a thrown call leaves the object as it was (in the source,
`assertWritable()` runs before any field is touched, so a throw happens before
any mutation). -/
def runOp (r : ResAccumulator) (op : Op) : ResAccumulator :=
  match applyOp r op with
  | .ok r' => r'
  | .error _ => r

/-- The state after a sequence of calls (thrown calls swallowed by the
caller, the object kept). -/
def run (r : ResAccumulator) (ops : List Op) : ResAccumulator :=
  ops.foldl runOp r

/-! ### Lemmas about the finalized flag -/

/-- On a finalized accumulator every operation throws the
"already finalized" error. -/
lemma applyOp_of_finalized (r : ResAccumulator) (h : r._finalized = true) (op : Op) :
    applyOp r op = .error ResAccumulator.finalizedMsg := by
  cases op <;>
    simp [applyOp, ResAccumulator.status, ResAccumulator.set, ResAccumulator.headers,
      ResAccumulator.type, ResAccumulator.send, ResAccumulator.jsonStr,
      ResAccumulator.stream, ResAccumulator.redirect, ResAccumulator.finalize,
      ResAccumulator.assertWritable, h, Except.map, Bind.bind, Except.bind]

/-- An operation only succeeds from the writable state. -/
lemma applyOp_ok_writable {r r' : ResAccumulator} {op : Op}
    (h : applyOp r op = .ok r') : r._finalized = false := by
  by_contra hf
  rw [applyOp_of_finalized r (by simpa using hf) op] at h
  exact Except.noConfusion h

/-- A successful finalizing operation leaves `_finalized = true`. -/
lemma applyOp_finalizing_sets {r r' : ResAccumulator} {op : Op}
    (hop : op.isFinalizing = true) (h : applyOp r op = .ok r') :
    r'._finalized = true := by
  have hw := applyOp_ok_writable h
  cases op <;> simp [Op.isFinalizing] at hop <;>
    simp [applyOp, ResAccumulator.send, ResAccumulator.jsonStr, ResAccumulator.stream,
      ResAccumulator.redirect, ResAccumulator.finalize, ResAccumulator.assertWritable,
      hw, Except.map, Bind.bind, Except.bind, pure, Except.pure] at h <;>
    simp [← h]

/-- A successful non-finalizing operation keeps `_finalized = false`. -/
lemma applyOp_nonfinalizing_keeps {r r' : ResAccumulator} {op : Op}
    (hop : op.isFinalizing = false) (h : applyOp r op = .ok r') :
    r'._finalized = false := by
  have hw := applyOp_ok_writable h
  cases op <;> simp [Op.isFinalizing] at hop <;>
    simp [applyOp, ResAccumulator.status, ResAccumulator.set, ResAccumulator.headers,
      ResAccumulator.type, ResAccumulator.assertWritable,
      hw, Bind.bind, Except.bind, pure, Except.pure] at h <;>
    simp [← h]

/-- Once finalized, a whole sequence of further calls leaves the accumulator
bit-for-bit unchanged (every call throws before mutating anything). -/
lemma run_of_finalized (r : ResAccumulator) (h : r._finalized = true)
    (ops : List Op) : run r ops = r := by
  induction ops with
  | nil => rfl
  | cons op ops ih =>
      have : runOp r op = r := by
        simp [runOp, applyOp_of_finalized r h op]
      simpa [run, List.foldl_cons, this] using ih

/-- C1: once any finalizing operation (send, json, stream, redirect or
finalize) succeeds, `isFinalized()` is true; from a finalized accumulator
every operation (mutating or finalizing) throws the "already finalized"
error, any sequence of further calls leaves the state — status, headers,
body and the flag — bit-for-bit unchanged (so `isFinalized()` stays true
forever); and no operation at all succeeds from a finalized accumulator, so
the flag never reverts to false. -/
theorem C1_finalized_invariant :
    (∀ (r r' : ResAccumulator) (op : Op), op.isFinalizing = true →
        applyOp r op = .ok r' → r'.isFinalized = true) ∧
    (∀ (r : ResAccumulator) (op : Op), r.isFinalized = true →
        applyOp r op = .error ResAccumulator.finalizedMsg) ∧
    (∀ (r : ResAccumulator) (ops : List Op), r.isFinalized = true →
        run r ops = r ∧ (run r ops).isFinalized = true) ∧
    (∀ (r r' : ResAccumulator) (op : Op), applyOp r op = .ok r' →
        r.isFinalized = false) := by
  refine ⟨?_, ?_, ?_, ?_⟩
  · intro r r' op hop h
    exact applyOp_finalizing_sets hop h
  · intro r op h
    exact applyOp_of_finalized r h op
  · intro r ops h
    rw [run_of_finalized r h ops]
    exact ⟨rfl, h⟩
  · intro r r' op h
    simpa [ResAccumulator.isFinalized] using applyOp_ok_writable h

/-- Witness for C1 at concrete inputs: `send` on a fresh accumulator
finalizes it, and on a finalized accumulator `status(404)` throws while a
further call sequence changes nothing. -/
theorem C1_finalized_invariant_witness :
    ({ _body := some (BodyInit.text "Test"), _finalized := true } :
        ResAccumulator).isFinalized = true ∧
    applyOp { _finalized := true } (Op.status 404) =
      .error ResAccumulator.finalizedMsg ∧
    run { _finalized := true } [Op.set "X-Test" "value", Op.finalize] =
      { _finalized := true } := by
  refine ⟨?_, ?_, ?_⟩
  · exact C1_finalized_invariant.1 {} _ (Op.send (BodyInit.text "Test"))
      (by decide) (by decide)
  · exact C1_finalized_invariant.2.1 _ (Op.status 404) (by decide)
  · exact (C1_finalized_invariant.2.2.1 _ [Op.set "X-Test" "value", Op.finalize]
      (by decide)).1

/-- C2: every operation is atomic — it either fully succeeds or fails leaving
the accumulator bit-for-bit unchanged (`assertWritable()` runs before any
mutation); in particular `headers(map)` on a finalized accumulator throws and
applies none of the entries of the map, so every header reads exactly as before. -/
theorem C2_operations_atomic :
    (∀ (r : ResAccumulator) (op : Op),
        (∃ r', applyOp r op = .ok r') ∨ runOp r op = r) ∧
    (∀ (r : ResAccumulator) (hs : List (String × String)),
        r.isFinalized = true →
        r.headers hs = .error ResAccumulator.finalizedMsg ∧
        runOp r (.headers hs) = r ∧
        ∀ name, (runOp r (.headers hs)).getHeader name = r.getHeader name) := by
  constructor
  · intro r op
    cases h : applyOp r op with
    | ok r' => exact .inl ⟨r', rfl⟩
    | error e => exact .inr (by simp [runOp, h])
  · intro r hs h
    have herr : applyOp r (.headers hs) = .error ResAccumulator.finalizedMsg :=
      applyOp_of_finalized r h (.headers hs)
    have hrun : runOp r (.headers hs) = r := by simp [runOp, herr]
    refine ⟨by simpa [applyOp] using herr, hrun, fun name => by rw [hrun]⟩

/-- Witness for C2 at concrete inputs: a finalized accumulator carrying one
header rejects a two-entry `headers` call and keeps its header readable,
untouched. -/
theorem C2_operations_atomic_witness :
    ({ _headers := [("x-old", "1")], _finalized := true } :
        ResAccumulator).headers [("A", "2"), ("B", "3")] =
      .error ResAccumulator.finalizedMsg ∧
    runOp { _headers := [("x-old", "1")], _finalized := true }
        (.headers [("A", "2"), ("B", "3")]) =
      { _headers := [("x-old", "1")], _finalized := true } ∧
    (runOp { _headers := [("x-old", "1")], _finalized := true }
        (.headers [("A", "2"), ("B", "3")])).getHeader "X-Old" =
      some "1" := by
  have h := C2_operations_atomic.2
      { _headers := [("x-old", "1")], _finalized := true }
      [("A", "2"), ("B", "3")] (by decide)
  refine ⟨h.1, h.2.1, ?_⟩
  rw [h.2.2 "X-Old"]
  decide

/-! ### Lemmas about the header map -/

/-- Lemma: `Headers.set` is last-write-wins per case-insensitive name and leaves
every other name alone. -/
lemma hget_hset (h : HeadersM) (n v m : String) :
    hget (hset h n v) m =
      if lowerStr m = lowerStr n then some v else hget h m := by
  induction h with
  | nil =>
      by_cases hc : lowerStr m = lowerStr n
      · simp [hset, hget, hc]
      · simp [hset, hget, hc, Ne.symm hc]
  | cons p rest ih =>
      obtain ⟨k, w⟩ := p
      by_cases hk : k = lowerStr n
      · by_cases hc : lowerStr m = lowerStr n
        · simp [hset, hget, hk, hc]
        · have hnm : lowerStr n ≠ lowerStr m := fun e => hc e.symm
          simp [hset, hget, hk, hnm, hc]
      · by_cases hm : k = lowerStr m
        · have hc : ¬ lowerStr m = lowerStr n := fun e => hk (hm.trans e)
          simp [hset, hget, hk, hm, hc]
        · by_cases hc : lowerStr m = lowerStr n <;>
            simp [hset, hget, hk, hm, hc, ih]

/-- The full effect of a successful `redirect`: the status becomes the code
(302 by default), `Location` is set, the body is cleared, the accumulator is
finalized, and the response snapshots exactly that state. -/
lemma redirect_eq (r : ResAccumulator) (url : String) (code : Option Nat)
    (hf : r._finalized = false) :
    r.redirect url code =
      .ok ({ r with _status := code.getD 302,
                    _headers := hset r._headers "Location" url,
                    _body := none, _finalized := true },
           { status := code.getD 302,
             headers := hset r._headers "Location" url,
             body := none }) := by
  simp [ResAccumulator.redirect, ResAccumulator.finalize,
    ResAccumulator.assertWritable, hf, Bind.bind, Except.bind, pure, Except.pure]

/-- C3: on a writable accumulator, `stream(handle)` succeeds, finalizes the
accumulator, and the body of the produced response is exactly the given stream
handle (same object identity, no copy), with the current status and headers
snapshotted. -/
theorem C3_stream_body_identity (r : ResAccumulator) (s : Nat)
    (h : r.isFinalized = false) :
    r.stream s =
      .ok ({ r with _body := some (BodyInit.stream s), _finalized := true },
           { status := r._status, headers := r._headers,
             body := some (BodyInit.stream s) }) := by
  have hf : r._finalized = false := h
  simp [ResAccumulator.stream, ResAccumulator.finalize,
    ResAccumulator.assertWritable, hf, Bind.bind, Except.bind, pure, Except.pure]

/-- Witness for C3: a fresh accumulator streaming handle 7. -/
theorem C3_stream_body_identity_witness :
    ({} : ResAccumulator).stream 7 =
      .ok ({ _body := some (BodyInit.stream 7), _finalized := true },
           { status := 200, headers := [], body := some (BodyInit.stream 7) }) :=
  C3_stream_body_identity {} 7 (by decide)

/-- C5: on a writable accumulator, `redirect(url, status)` succeeds and the
status of the produced response is the given code (302 when omitted), its
`Location` header is exactly `url`, and its body is absent even when a body
had been set on the accumulator before the call. -/
theorem C5_redirect_response (r : ResAccumulator) (url : String)
    (code : Option Nat) (h : r.isFinalized = false) :
    ∃ r' resp, r.redirect url code = .ok (r', resp) ∧
      resp.status = code.getD 302 ∧
      hget resp.headers "Location" = some url ∧
      resp.body = none ∧
      r'.isFinalized = true := by
  have hf : r._finalized = false := h
  exact ⟨_, _, redirect_eq r url code hf, rfl, by simp [hget_hset], rfl, rfl⟩

/-- Witness for C5: a redirect with an explicit 301 on an accumulator that
already holds a body, and one with the code omitted. -/
theorem C5_redirect_response_witness :
    (∃ r' resp,
        ({ _body := some (BodyInit.text "old") } : ResAccumulator).redirect
            "/new-location" (some 301) = .ok (r', resp) ∧
        resp.status = (some 301).getD 302 ∧
        hget resp.headers "Location" = some "/new-location" ∧
        resp.body = none ∧
        r'.isFinalized = true) ∧
    (∃ r' resp, ({} : ResAccumulator).redirect "/other" none = .ok (r', resp) ∧
        resp.status = Option.getD none 302 ∧
        hget resp.headers "Location" = some "/other" ∧
        resp.body = none ∧
        r'.isFinalized = true) :=
  ⟨C5_redirect_response { _body := some (BodyInit.text "old") }
      "/new-location" (some 301) (by decide),
   C5_redirect_response {} "/other" none (by decide)⟩

/-- C10: `redirect` leaves every header other than `Location` unchanged — in
the produced response, any name that is not (case-insensitively) `Location`
reads exactly as it did on the accumulator before the call. -/
theorem C10_redirect_preserves_other_headers (r : ResAccumulator)
    (url : String) (code : Option Nat) (name : String)
    (h : r.isFinalized = false) (hname : lowerStr name ≠ lowerStr "Location") :
    ∃ r' resp, r.redirect url code = .ok (r', resp) ∧
      hget resp.headers name = r.getHeader name := by
  have hf : r._finalized = false := h
  exact ⟨_, _, redirect_eq r url code hf,
    by simp [hget_hset, hname, ResAccumulator.getHeader]⟩

/-! ### Trace semantics of the non-finalizing calls (C6) -/

/-- Left-biased combination: the first value if present, the second
otherwise. -/
def orD {α : Type} (a b : Option α) : Option α :=
  match a with
  | some v => some v
  | none => b

/-- The status code an op writes, if any. -/
def Op.statusWrite : Op → Option Nat
  | .status c => some c
  | _ => none

/-- The header writes an op performs, in order (the `type` shorthand is a
`Content-Type` write, `headers` writes each entry of its map in iteration
order). -/
def Op.headerWrites : Op → List (String × String)
  | .set n v => [(n, v)]
  | .headers hs => hs
  | .type m => [("Content-Type", m)]
  | _ => []

/-- The value of the last write to (case-insensitive) `name` in a write list,
starting from accumulator `a`. -/
def lastWriteFrom (ws : List (String × String)) (name : String)
    (a : Option String) : Option String :=
  ws.foldl (fun acc p => if lowerStr p.1 = lowerStr name then some p.2 else acc) a

/-- The value of the last write to (case-insensitive) `name` in a write
list. -/
def lastWrite (ws : List (String × String)) (name : String) : Option String :=
  lastWriteFrom ws name none

/-- The last status code a call sequence writes. -/
def lastStatusWrite (ops : List Op) : Option Nat :=
  ops.foldl (fun acc op => orD op.statusWrite acc) none

/-- The value of the last header write to `name` across a call sequence. -/
def lastHeaderWrite (ops : List Op) (name : String) : Option String :=
  lastWrite (ops.map Op.headerWrites).flatten name

lemma lastWriteFrom_cons (q : String × String) (ws : List (String × String))
    (name : String) (a : Option String) :
    lastWriteFrom (q :: ws) name a =
      lastWriteFrom ws name
        (if lowerStr q.1 = lowerStr name then some q.2 else a) := rfl

lemma lastWriteFrom_eq (ws : List (String × String)) (name : String)
    (a : Option String) :
    lastWriteFrom ws name a = orD (lastWrite ws name) a := by
  induction ws generalizing a with
  | nil => cases a <;> rfl
  | cons q ws ih =>
      simp only [lastWrite]
      rw [lastWriteFrom_cons, lastWriteFrom_cons, ih, ih]
      by_cases hc : lowerStr q.1 = lowerStr name <;>
        cases hlw : lastWrite ws name <;> simp [hc, hlw, orD]

lemma orD_none {α : Type} (b : Option α) : orD none b = b := rfl

lemma orD_some {α : Type} (v : α) (b : Option α) : orD (some v) b = some v := rfl

lemma orD_assoc {α : Type} (a b c : Option α) :
    orD (orD a b) c = orD a (orD b c) := by
  cases a <;> cases b <;> rfl

lemma lastWrite_nil (name : String) : lastWrite [] name = none := rfl

lemma lastWrite_cons (q : String × String) (ws : List (String × String))
    (name : String) :
    lastWrite (q :: ws) name =
      orD (lastWrite ws name)
        (if lowerStr q.1 = lowerStr name then some q.2 else none) := by
  rw [lastWrite, lastWriteFrom_cons, lastWriteFrom_eq]

lemma lastWrite_append (A B : List (String × String)) (name : String) :
    lastWrite (A ++ B) name = orD (lastWrite B name) (lastWrite A name) := by
  rw [show lastWrite (A ++ B) name =
        lastWriteFrom B name (lastWrite A name) by
      simp [lastWrite, lastWriteFrom, List.foldl_append]]
  exact lastWriteFrom_eq B name (lastWrite A name)

/-- Reading a header after folding `Headers.set` over a write list: the last
matching write wins, otherwise the old value shows through. -/
lemma hget_foldl_hset (hs : List (String × String)) (h0 : HeadersM)
    (name : String) :
    hget (hs.foldl (fun acc p => hset acc p.1 p.2) h0) name =
      orD (lastWrite hs name) (hget h0 name) := by
  induction hs generalizing h0 with
  | nil => rw [List.foldl_nil, lastWrite_nil, orD_none]
  | cons p hs ih =>
      rw [List.foldl_cons, ih, hget_hset, lastWrite_cons, orD_assoc]
      by_cases hc : lowerStr name = lowerStr p.1
      · rw [if_pos hc, if_pos hc.symm, orD_some]
      · rw [if_neg hc, if_neg (fun e => hc e.symm), orD_none]

lemma runOp_status (r : ResAccumulator) (hf : r._finalized = false) (c : Nat) :
    runOp r (.status c) = { r with _status := c } := by
  simp [runOp, applyOp, ResAccumulator.status, ResAccumulator.assertWritable,
    hf, Bind.bind, Except.bind, pure, Except.pure]

lemma runOp_set (r : ResAccumulator) (hf : r._finalized = false)
    (n v : String) :
    runOp r (.set n v) = { r with _headers := hset r._headers n v } := by
  simp [runOp, applyOp, ResAccumulator.set, ResAccumulator.assertWritable,
    hf, Bind.bind, Except.bind, pure, Except.pure]

lemma runOp_headers (r : ResAccumulator) (hf : r._finalized = false)
    (hs : List (String × String)) :
    runOp r (.headers hs) =
      { r with _headers := hs.foldl (fun acc p => hset acc p.1 p.2) r._headers } := by
  simp [runOp, applyOp, ResAccumulator.headers, ResAccumulator.assertWritable,
    hf, Bind.bind, Except.bind, pure, Except.pure]

lemma runOp_type (r : ResAccumulator) (hf : r._finalized = false) (m : String) :
    runOp r (.type m) =
      { r with _headers := hset r._headers "Content-Type" m } := by
  simp [runOp, applyOp, ResAccumulator.type, ResAccumulator.assertWritable,
    hf, Bind.bind, Except.bind, pure, Except.pure]

/-- A non-finalizing call on a writable accumulator succeeds, stays writable,
its status is the written code if any (the old one otherwise), and each header
reads as the last matching write of the op with the old value showing through. -/
lemma runOp_nonfinalizing (r : ResAccumulator) (op : Op)
    (hf : r._finalized = false) (hop : op.isFinalizing = false) :
    (runOp r op)._finalized = false ∧
    (runOp r op).getStatus = op.statusWrite.getD r.getStatus ∧
    ∀ name, (runOp r op).getHeader name =
      orD (lastWrite op.headerWrites name) (r.getHeader name) := by
  cases op with
  | status c =>
      rw [runOp_status r hf c]
      exact ⟨hf, rfl, fun name => rfl⟩
  | set n v =>
      rw [runOp_set r hf n v]
      refine ⟨hf, rfl, fun name => ?_⟩
      show hget (hset r._headers n v) name = _
      rw [hget_hset]
      simp only [Op.headerWrites, lastWrite_cons, lastWrite_nil, orD_none]
      by_cases hc : lowerStr name = lowerStr n
      · rw [if_pos hc, if_pos hc.symm, orD_some]
      · rw [if_neg hc, if_neg (fun e => hc e.symm), orD_none]; rfl
  | headers hs =>
      rw [runOp_headers r hf hs]
      exact ⟨hf, rfl, fun name => hget_foldl_hset hs r._headers name⟩
  | type m =>
      rw [runOp_type r hf m]
      refine ⟨hf, rfl, fun name => ?_⟩
      show hget (hset r._headers "Content-Type" m) name = _
      rw [hget_hset]
      simp only [Op.headerWrites, lastWrite_cons, lastWrite_nil, orD_none]
      by_cases hc : lowerStr name = lowerStr "Content-Type"
      · rw [if_pos hc, if_pos hc.symm, orD_some]
      · rw [if_neg hc, if_neg (fun e => hc e.symm), orD_none]; rfl
  | send b => simp [Op.isFinalizing] at hop
  | json p => simp [Op.isFinalizing] at hop
  | stream s => simp [Op.isFinalizing] at hop
  | redirect u c => simp [Op.isFinalizing] at hop
  | finalize => simp [Op.isFinalizing] at hop

lemma lastStatusFrom_eq (ops : List Op) (a : Option Nat) :
    ops.foldl (fun acc op => orD op.statusWrite acc) a =
      orD (lastStatusWrite ops) a := by
  induction ops generalizing a with
  | nil => cases a <;> rfl
  | cons op ops ih =>
      show List.foldl _ (orD op.statusWrite a) ops = _
      rw [ih, show lastStatusWrite (op :: ops) =
            List.foldl (fun acc o => orD o.statusWrite acc)
              (orD op.statusWrite none) ops from rfl, ih]
      cases hlw : lastStatusWrite ops <;> cases hsw : op.statusWrite <;>
        cases a <;> rfl

/-- C6: over any sequence of non-finalizing calls on a writable accumulator,
`getStatus()` returns the most recently written status code (the starting one
when none was written) and `getHeader(name)` returns the most recently written
value for that name — compared case-insensitively, with the entries of a
`headers(map)` call applied in the iteration order of the map, so for duplicate
names the later entry wins. -/
theorem C6_last_write_wins (r : ResAccumulator) (ops : List Op)
    (hf : r.isFinalized = false) (hops : ∀ op ∈ ops, op.isFinalizing = false) :
    (run r ops).getStatus = (lastStatusWrite ops).getD r.getStatus ∧
    ∀ name, (run r ops).getHeader name =
      orD (lastHeaderWrite ops name) (r.getHeader name) := by
  induction ops generalizing r with
  | nil => exact ⟨rfl, fun name => rfl⟩
  | cons op ops ih =>
      have hop : op.isFinalizing = false := hops op (List.mem_cons_self op ops)
      have hfb : r._finalized = false := hf
      have h1 := runOp_nonfinalizing r op hfb hop
      have ih' := ih (runOp r op) h1.1
        (fun o ho => hops o (List.mem_cons_of_mem op ho))
      have hrun : run r (op :: ops) = run (runOp r op) ops := rfl
      constructor
      · rw [hrun, ih'.1, h1.2.1,
          show lastStatusWrite (op :: ops) =
            List.foldl (fun acc o => orD o.statusWrite acc)
              (orD op.statusWrite none) ops from rfl,
          lastStatusFrom_eq]
        cases hlw : lastStatusWrite ops <;> cases hsw : op.statusWrite <;> rfl
      · intro name
        rw [hrun, ih'.2 name, h1.2.2 name,
          show lastHeaderWrite (op :: ops) name =
            lastWrite (op.headerWrites ++ (ops.map Op.headerWrites).flatten) name
            from rfl,
          lastWrite_append, orD_assoc]
        rfl

/-- Witness for C6 at concrete inputs: status twice (the second wins), a set
overridden through `headers` with a duplicate name in the same call (the later
entry wins, case-insensitively), and `type` as a `Content-Type` write. -/
theorem C6_last_write_wins_witness :
    (run {} [Op.status 201, Op.status 404,
        Op.set "X-Tag" "a", Op.headers [("x-tag", "b"), ("X-TAG", "c")],
        Op.type "text/html"]).getStatus =
      (lastStatusWrite [Op.status 201, Op.status 404,
        Op.set "X-Tag" "a", Op.headers [("x-tag", "b"), ("X-TAG", "c")],
        Op.type "text/html"]).getD (ResAccumulator.getStatus {}) ∧
    (run {} [Op.status 201, Op.status 404,
        Op.set "X-Tag" "a", Op.headers [("x-tag", "b"), ("X-TAG", "c")],
        Op.type "text/html"]).getHeader "X-Tag" =
      orD (lastHeaderWrite [Op.status 201, Op.status 404,
        Op.set "X-Tag" "a", Op.headers [("x-tag", "b"), ("X-TAG", "c")],
        Op.type "text/html"] "X-Tag") (ResAccumulator.getHeader {} "X-Tag") := by
  have h := C6_last_write_wins {}
    [Op.status 201, Op.status 404, Op.set "X-Tag" "a",
     Op.headers [("x-tag", "b"), ("X-TAG", "c")], Op.type "text/html"]
    (by decide) (by decide)
  exact ⟨h.1, h.2 "X-Tag"⟩

/-! ### The JSON model (C4)

`JSON.stringify` / `JSON.parse` are platform primitives; they are modelled
over an inductive value type (`null`, booleans, integer numbers, strings,
arrays, objects — JS numbers restricted to integers, since floats are outside
the shallow embedding).  `stringify` follows the JSON grammar JS emits (no
whitespace, `","`/`":"` separators, strings quoted with `"`, `\"`/`\\`
escapes and `\u00XX` for control characters); `parse` is a recursive-descent
parser for that grammar. -/

inductive Json where
  | null : Json
  | bool : Bool → Json
  | num : Int → Json
  | str : String → Json
  | arr : List Json → Json
  | obj : List (String × Json) → Json

/-- Hex digit (lower case, as in JS `\u` escapes). -/
def hexChar (n : Nat) : Char :=
  Char.ofNat (if n < 10 then 48 + n else 87 + n)

/-- Escape one character as JSON string content: `"` and `\` get a backslash,
control characters become `\u00XX`, everything else stands for itself. -/
def escapeChar (c : Char) : List Char :=
  if c = '"' then '\\' :: ['"']
  else if c = '\\' then '\\' :: ['\\']
  else if c.toNat < 32 then
    '\\' :: 'u' :: '0' :: '0' :: hexChar (c.toNat / 16) :: [hexChar (c.toNat % 16)]
  else [c]

/-- Escape a whole string body. -/
def escStr : List Char → List Char
  | [] => []
  | c :: cs => escapeChar c ++ escStr cs

/-- Decimal digit to character. -/
def digitToChar (d : Nat) : Char := Char.ofNat (48 + d)

/-- Decimal representation of a natural number (most significant first). -/
def natToChars (n : Nat) : List Char :=
  if n = 0 then ['0'] else (Nat.digits 10 n).reverse.map digitToChar

/-- Decimal representation of an integer. -/
def intToChars (i : Int) : List Char :=
  if i < 0 then '-' :: natToChars i.natAbs else natToChars i.toNat

mutual

/-- Model of `JSON.stringify` over the value model, as a character list. -/
def strfJson : Json → List Char
  | .bool b => (cond b "true" "false").data
  | .null => "null".data
  | .num i => intToChars i
  | .str s => '"' :: (escStr s.data ++ ['"'])
  | .arr xs => '[' :: (strfElems xs ++ [']'])
  | .obj ms => '{' :: (strfMembers ms ++ ['}'])

/-- Comma-separated stringified array elements. -/
def strfElems : List Json → List Char
  | [] => []
  | [x] => strfJson x
  | x :: xs => strfJson x ++ ',' :: strfElems xs

/-- Comma-separated stringified object members (`"key":value`). -/
def strfMembers : List (String × Json) → List Char
  | [] => []
  | [(k, v)] => '"' :: (escStr k.data ++ '"' :: ':' :: strfJson v)
  | (k, v) :: ms =>
      ('"' :: (escStr k.data ++ '"' :: ':' :: strfJson v)) ++ ',' :: strfMembers ms

end

/-- Model of `JSON.stringify`. -/
def JSONstringify (v : Json) : String := String.mk (strfJson v)

/-- Value of a hex digit character. -/
def hexVal (c : Char) : Option Nat :=
  if 48 ≤ c.toNat ∧ c.toNat ≤ 57 then some (c.toNat - 48)
  else if 97 ≤ c.toNat ∧ c.toNat ≤ 102 then some (c.toNat - 87)
  else if 65 ≤ c.toNat ∧ c.toNat ≤ 70 then some (c.toNat - 55)
  else none

/-- Parse JSON string content up to the closing quote; returns the decoded
characters and the input after the quote. -/
def parseStrBody : Nat → List Char → Option (List Char × List Char)
  | 0, _ => none
  | _ + 1, [] => none
  | fuel + 1, c :: rest =>
    if c = '"' then some ([], rest)
    else if c = '\\' then
      match rest with
      | [] => none
      | e :: rest2 =>
        if e = '"' then (parseStrBody fuel rest2).map (fun p => ('"' :: p.1, p.2))
        else if e = '\\' then
          (parseStrBody fuel rest2).map (fun p => ('\\' :: p.1, p.2))
        else if e = 'u' then
          match rest2 with
          | h1 :: h2 :: h3 :: h4 :: rest3 =>
            match hexVal h1, hexVal h2, hexVal h3, hexVal h4 with
            | some a, some b, some c2, some d =>
              (parseStrBody fuel rest3).map
                (fun p => (Char.ofNat (((a * 16 + b) * 16 + c2) * 16 + d) :: p.1, p.2))
            | _, _, _, _ => none
          | _ => none
        else none
    else (parseStrBody fuel rest).map (fun p => (c :: p.1, p.2))

/-- String-content parser with enough fuel for its input. -/
def parseStr (cs : List Char) : Option (List Char × List Char) :=
  parseStrBody (cs.length + 1) cs

/-- Greedily take decimal digits, returning their values and the rest. -/
def takeDigits : List Char → List Nat × List Char
  | [] => ([], [])
  | c :: rest =>
    if 48 ≤ c.toNat ∧ c.toNat ≤ 57 then
      let p := takeDigits rest
      ((c.toNat - 48) :: p.1, p.2)
    else ([], c :: rest)

/-- Value of a most-significant-first digit list. -/
def digitsVal (ds : List Nat) : Nat := ds.foldl (fun a d => a * 10 + d) 0

/-- Parse a JSON integer number. -/
def parseNumber : List Char → Option (Json × List Char)
  | [] => none
  | c :: rest =>
    if c = '-' then
      match takeDigits rest with
      | ([], _) => none
      | (ds, r) => some (.num (-(digitsVal ds : Int)), r)
    else
      match takeDigits (c :: rest) with
      | ([], _) => none
      | (ds, r) => some (.num (digitsVal ds), r)

mutual

/-- Recursive-descent JSON value parser (fuel bounds the nesting). -/
def parseVal : Nat → List Char → Option (Json × List Char)
  | 0, _ => none
  | _ + 1, [] => none
  | fuel + 1, c :: rest =>
    if c = 'n' then
      match rest with
      | 'u' :: 'l' :: 'l' :: r => some (.null, r)
      | _ => none
    else if c = 't' then
      match rest with
      | 'r' :: 'u' :: 'e' :: r => some (.bool true, r)
      | _ => none
    else if c = 'f' then
      match rest with
      | 'a' :: 'l' :: 's' :: 'e' :: r => some (.bool false, r)
      | _ => none
    else if c = '"' then
      match parseStr rest with
      | some (s, r) => some (.str (String.mk s), r)
      | none => none
    else if c = '[' then
      match rest with
      | ']' :: r => some (.arr [], r)
      | _ =>
        match parseElems fuel rest with
        | some (xs, r) => some (.arr xs, r)
        | none => none
    else if c = '{' then
      match rest with
      | '}' :: r => some (.obj [], r)
      | _ =>
        match parseMembers fuel rest with
        | some (ms, r) => some (.obj ms, r)
        | none => none
    else parseNumber (c :: rest)

/-- Parse one or more comma-separated elements then the closing `]`. -/
def parseElems : Nat → List Char → Option (List Json × List Char)
  | 0, _ => none
  | fuel + 1, cs =>
    match parseVal fuel cs with
    | none => none
    | some (x, r) =>
      match r with
      | ',' :: r2 =>
        match parseElems fuel r2 with
        | some (xs, r3) => some (x :: xs, r3)
        | none => none
      | ']' :: r2 => some ([x], r2)
      | _ => none

/-- Parse one or more comma-separated `"key":value` members then `}`. -/
def parseMembers : Nat → List Char → Option (List (String × Json) × List Char)
  | 0, _ => none
  | fuel + 1, cs =>
    match cs with
    | '"' :: rest =>
      match parseStr rest with
      | none => none
      | some (k, r) =>
        match r with
        | ':' :: r2 =>
          match parseVal fuel r2 with
          | none => none
          | some (v, r3) =>
            match r3 with
            | ',' :: r4 =>
              match parseMembers fuel r4 with
              | some (ms, r5) => some ((String.mk k, v) :: ms, r5)
              | none => none
            | '}' :: r4 => some ([(String.mk k, v)], r4)
            | _ => none
        | _ => none
    | _ => none

end

/-- Model of `JSON.parse`, accepting exactly a full JSON value. -/
def JSONparse (s : String) : Option Json :=
  match parseVal (s.data.length + 1) s.data with
  | some (v, []) => some v
  | _ => none

/-! ### Round-trip of the string encoder/decoder -/

lemma hexVal_hexChar (n : Nat) (h : n < 16) :
    hexVal (hexChar n) = some n := by
  interval_cases n <;> decide

lemma hexVal_zero : hexVal '0' = some 0 := by decide

lemma parseStrBody_round (s : List Char) (rest : List Char) :
    ∀ fuel, (escStr s).length < fuel →
      parseStrBody fuel (escStr s ++ '"' :: rest) = some (s, rest) := by
  induction s with
  | nil =>
      intro fuel h
      cases fuel with
      | zero => omega
      | succ f => simp [escStr, parseStrBody]
  | cons c cs ih =>
      intro fuel h
      by_cases hq : c = '"'
      · subst hq
        rw [show escStr ('"' :: cs) = '\\' :: '"' :: escStr cs by
          simp [escStr, escapeChar]] at h ⊢
        match fuel, h with
        | f + 1, h =>
          have hlen : (escStr cs).length < f := by simp at h; omega
          simp [parseStrBody, ih f hlen]
      · by_cases hb : c = '\\'
        · subst hb
          rw [show escStr ('\\' :: cs) = '\\' :: '\\' :: escStr cs by
            simp [escStr, escapeChar]] at h ⊢
          match fuel, h with
          | f + 1, h =>
            have hlen : (escStr cs).length < f := by simp at h; omega
            simp [parseStrBody, ih f hlen]
        · by_cases hc : c.toNat < 32
          · rw [show escStr (c :: cs) =
                '\\' :: 'u' :: '0' :: '0' :: hexChar (c.toNat / 16) ::
                  hexChar (c.toNat % 16) :: escStr cs by
              simp [escStr, escapeChar, hq, hb, hc]] at h ⊢
            match fuel, h with
            | f + 1, h =>
              have hlen : (escStr cs).length < f := by simp at h; omega
              have h16 : c.toNat / 16 < 16 := by omega
              have h16' : c.toNat % 16 < 16 := Nat.mod_lt _ (by omega)
              simp [parseStrBody, hexVal_zero, hexVal_hexChar _ h16,
                hexVal_hexChar _ h16', ih f hlen]
              have hx : c.toNat / 16 * 16 + c.toNat % 16 = c.toNat := by omega
              rw [hx, Char.ofNat_toNat]
          · rw [show escStr (c :: cs) = c :: escStr cs by
              simp [escStr, escapeChar, hq, hb, hc]] at h ⊢
            match fuel, h with
            | f + 1, h =>
              have hlen : (escStr cs).length < f := by simp at h; omega
              simp [parseStrBody, hq, hb, ih f hlen]

/-- The wrapper `parseStr` always has enough fuel for the encoder output. -/
lemma parseStr_round (s : List Char) (rest : List Char) :
    parseStr (escStr s ++ '"' :: rest) = some (s, rest) := by
  apply parseStrBody_round
  simp; omega

/-! ### Round-trip of the number encoder/decoder -/

/-- "Does not start with a decimal digit": what the number parser needs to
know about the input following an encoded number. -/
def noDigitHead : List Char → Prop
  | [] => True
  | c :: _ => ¬(48 ≤ c.toNat ∧ c.toNat ≤ 57)

lemma toNat_digitToChar (d : Nat) (h : d < 10) :
    (digitToChar d).toNat = 48 + d := by
  interval_cases d <;> decide

lemma natToChars_digits (n : Nat) :
    ∀ c ∈ natToChars n, 48 ≤ c.toNat ∧ c.toNat ≤ 57 := by
  intro c hc
  unfold natToChars at hc
  by_cases h0 : n = 0
  · simp [h0] at hc
    subst hc
    decide
  · rw [if_neg h0] at hc
    simp only [List.mem_map, List.mem_reverse] at hc
    obtain ⟨d, hd, rfl⟩ := hc
    have hlt : d < 10 := Nat.digits_lt_base' hd
    rw [toNat_digitToChar d hlt]
    omega

lemma natToChars_ne_nil (n : Nat) : natToChars n ≠ [] := by
  unfold natToChars
  by_cases h0 : n = 0
  · simp [h0]
  · rw [if_neg h0]
    simp [Nat.digits_ne_nil_iff_ne_zero.mpr h0]

lemma takeDigits_append (A rest : List Char)
    (hA : ∀ c ∈ A, 48 ≤ c.toNat ∧ c.toNat ≤ 57) (hrest : noDigitHead rest) :
    takeDigits (A ++ rest) = (A.map (fun c => c.toNat - 48), rest) := by
  induction A with
  | nil =>
      cases rest with
      | nil => rfl
      | cons c r =>
          have : ¬(48 ≤ c.toNat ∧ c.toNat ≤ 57) := hrest
          simp [takeDigits, this]
  | cons c A ih =>
      have hc := hA c (List.mem_cons_self c A)
      have ih' := ih (fun d hd => hA d (List.mem_cons_of_mem c hd))
      simp [takeDigits, hc, ih']

lemma digitsVal_natToChars (n : Nat) :
    digitsVal ((natToChars n).map (fun c => c.toNat - 48)) = n := by
  have hfoldr : ∀ L : List Nat, L.foldr (fun d a => a * 10 + d) 0 =
      Nat.ofDigits 10 L := by
    intro L
    induction L with
    | nil => simp [Nat.ofDigits]
    | cons d L ih =>
        rw [List.foldr_cons, ih, Nat.ofDigits_cons]
        ring
  unfold natToChars
  by_cases h0 : n = 0
  · simp [h0, digitsVal]
  · rw [if_neg h0]
    rw [List.map_map,
      show (Nat.digits 10 n).reverse.map ((fun c => c.toNat - 48) ∘ digitToChar)
        = (Nat.digits 10 n).reverse.map id from
        List.map_congr_left (fun d hd => by
          have hlt : d < 10 :=
            Nat.digits_lt_base' (List.mem_reverse.mp hd)
          simp [toNat_digitToChar d hlt]),
      List.map_id]
    unfold digitsVal
    rw [List.foldl_reverse, hfoldr, Nat.ofDigits_digits]

lemma parseNumber_natToChars (n : Nat) (rest : List Char)
    (hrest : noDigitHead rest) :
    takeDigits (natToChars n ++ rest) =
      ((natToChars n).map (fun c => c.toNat - 48), rest) ∧
    digitsVal ((natToChars n).map (fun c => c.toNat - 48)) = n :=
  ⟨takeDigits_append _ _ (natToChars_digits n) hrest, digitsVal_natToChars n⟩

lemma parseNumber_round (i : Int) (rest : List Char)
    (hrest : noDigitHead rest) :
    parseNumber (intToChars i ++ rest) = some (.num i, rest) := by
  by_cases hi : i < 0
  · obtain ⟨c0, A, hA⟩ : ∃ c0 A, natToChars i.natAbs = c0 :: A := by
      cases h : natToChars i.natAbs with
      | nil => exact absurd h (natToChars_ne_nil _)
      | cons c0 A => exact ⟨c0, A, rfl⟩
    have htake := takeDigits_append (natToChars i.natAbs) rest
      (natToChars_digits _) hrest
    have hval := digitsVal_natToChars i.natAbs
    rw [show intToChars i = '-' :: natToChars i.natAbs by
      simp [intToChars, hi]]
    rw [hA] at htake hval ⊢
    simp only [List.cons_append, List.map_cons] at htake hval ⊢
    simp only [parseNumber, if_pos rfl]
    rw [htake]
    simp [hval, Int.ofNat_natAbs_of_nonpos hi.le, neg_neg]
  · push_neg at hi
    obtain ⟨c0, A, hA⟩ : ∃ c0 A, natToChars i.toNat = c0 :: A := by
      cases h : natToChars i.toNat with
      | nil => exact absurd h (natToChars_ne_nil _)
      | cons c0 A => exact ⟨c0, A, rfl⟩
    have hc0 := natToChars_digits i.toNat c0
      (by rw [hA]; exact List.mem_cons_self _ _)
    have hd : c0 ≠ '-' := by
      intro e
      rw [e] at hc0
      revert hc0
      decide
    have htake := takeDigits_append (natToChars i.toNat) rest
      (natToChars_digits _) hrest
    have hval := digitsVal_natToChars i.toNat
    rw [show intToChars i = natToChars i.toNat by
      simp [intToChars, not_lt.mpr hi]]
    rw [hA] at htake hval ⊢
    simp only [List.cons_append, List.map_cons] at htake hval ⊢
    simp only [parseNumber, if_neg hd]
    rw [htake]
    simp [hval, Int.toNat_of_nonneg hi]

/-! ### Round-trip of the full JSON encoder/decoder -/

mutual

/-- Fuel bound for parsing a stringified value (counts nesting steps). -/
def jsonFuel : Json → Nat
  | .arr xs => 1 + jsonFuelElems xs
  | .obj ms => 1 + jsonFuelMembers ms
  | _ => 1

/-- Fuel bound for parsing stringified elements. -/
def jsonFuelElems : List Json → Nat
  | [] => 0
  | x :: xs => jsonFuel x + jsonFuelElems xs + 1

/-- Fuel bound for parsing stringified members. -/
def jsonFuelMembers : List (String × Json) → Nat
  | [] => 0
  | m :: ms => jsonFuel m.2 + jsonFuelMembers ms + 1

end

lemma jsonFuel_pos (v : Json) : 1 ≤ jsonFuel v := by
  cases v <;> simp [jsonFuel]

lemma intToChars_head (i : Int) :
    ∃ c t, intToChars i = c :: t ∧
      (c = '-' ∨ (48 ≤ c.toNat ∧ c.toNat ≤ 57)) := by
  by_cases hi : i < 0
  · exact ⟨'-', natToChars i.natAbs, by simp [intToChars, hi], .inl rfl⟩
  · obtain ⟨c0, A, hA⟩ : ∃ c0 A, natToChars i.toNat = c0 :: A := by
      cases h : natToChars i.toNat with
      | nil => exact absurd h (natToChars_ne_nil _)
      | cons c0 A => exact ⟨c0, A, rfl⟩
    refine ⟨c0, A, by simp [intToChars, hi, hA], .inr ?_⟩
    exact natToChars_digits i.toNat c0 (by rw [hA]; exact List.mem_cons_self _ _)

lemma numLead_ne (c : Char) (h : c = '-' ∨ (48 ≤ c.toNat ∧ c.toNat ≤ 57)) :
    c ≠ '{' ∧ c ≠ '[' ∧ c ≠ '"' ∧ c ≠ 'f' ∧ c ≠ 't' ∧ c ≠ 'n' := by
  rcases h with rfl | hd
  · refine ⟨by decide, by decide, by decide, by decide, by decide, by decide⟩
  · exact ⟨fun e => absurd (e ▸ hd) (by decide),
      fun e => absurd (e ▸ hd) (by decide),
      fun e => absurd (e ▸ hd) (by decide),
      fun e => absurd (e ▸ hd) (by decide),
      fun e => absurd (e ▸ hd) (by decide),
      fun e => absurd (e ▸ hd) (by decide)⟩

/-- Every stringified value starts with one of the chars the parser
dispatches on. -/
lemma strfJson_head (v : Json) :
    ∃ c t, strfJson v = c :: t ∧
      (c = 'n' ∨ c = 't' ∨ c = 'f' ∨ c = '"' ∨ c = '[' ∨ c = '{' ∨
        c = '-' ∨ (48 ≤ c.toNat ∧ c.toNat ≤ 57)) := by
  cases v with
  | null => exact ⟨'n', ['u', 'l', 'l'], by simp [strfJson], .inl rfl⟩
  | bool b =>
      cases b with
      | true => exact ⟨'t', ['r', 'u', 'e'], by simp [strfJson], .inr (.inl rfl)⟩
      | false =>
          exact ⟨'f', ['a', 'l', 's', 'e'], by simp [strfJson],
            .inr (.inr (.inl rfl))⟩
  | num i =>
      obtain ⟨c, t, hct, hc⟩ := intToChars_head i
      refine ⟨c, t, by simp [strfJson, hct], ?_⟩
      rcases hc with rfl | hd
      · exact .inr (.inr (.inr (.inr (.inr (.inr (.inl rfl))))))
      · exact .inr (.inr (.inr (.inr (.inr (.inr (.inr hd))))))
  | str s =>
      exact ⟨'"', escStr s.data ++ ['"'], by simp [strfJson],
        .inr (.inr (.inr (.inl rfl)))⟩
  | arr xs =>
      exact ⟨'[', strfElems xs ++ [']'], by simp [strfJson],
        .inr (.inr (.inr (.inr (.inl rfl))))⟩
  | obj ms =>
      exact ⟨'{', strfMembers ms ++ ['}'], by simp [strfJson],
        .inr (.inr (.inr (.inr (.inr (.inl rfl)))))⟩

lemma strfJson_head_ne_bracket (v : Json) :
    ∃ c t, strfJson v = c :: t ∧ c ≠ ']' ∧ c ≠ '}' := by
  obtain ⟨c, t, hct, hc⟩ := strfJson_head v
  refine ⟨c, t, hct, ?_, ?_⟩ <;>
  · rcases hc with rfl | rfl | rfl | rfl | rfl | rfl | rfl | hd
    · decide
    · decide
    · decide
    · decide
    · decide
    · decide
    · decide
    · exact fun e => absurd (e ▸ hd) (by decide)

lemma noDigitHead_rb (rest : List Char) : noDigitHead (']' :: rest) := by
  show ¬(48 ≤ (']' : Char).toNat ∧ (']' : Char).toNat ≤ 57)
  decide

lemma noDigitHead_rc (rest : List Char) : noDigitHead ('}' :: rest) := by
  show ¬(48 ≤ ('}' : Char).toNat ∧ ('}' : Char).toNat ≤ 57)
  decide

lemma noDigitHead_comma (rest : List Char) : noDigitHead (',' :: rest) := by
  show ¬(48 ≤ ((',') : Char).toNat ∧ ((',') : Char).toNat ≤ 57)
  decide

lemma strfElems_cons (x : Json) (xs : List Json) :
    ∃ T, strfElems (x :: xs) = strfJson x ++ T := by
  cases xs with
  | nil => exact ⟨[], by simp [strfElems]⟩
  | cons y ys => exact ⟨',' :: strfElems (y :: ys), rfl⟩

lemma strfMembers_head (k : String) (v : Json) (ms : List (String × Json)) :
    ∃ T, strfMembers ((k, v) :: ms) = '"' :: T := by
  cases ms with
  | nil => exact ⟨escStr k.data ++ '"' :: ':' :: strfJson v, rfl⟩
  | cons m ms' =>
      exact ⟨(escStr k.data ++ '"' :: ':' :: strfJson v) ++ ',' :: strfMembers (m :: ms'), rfl⟩

/-- The parser is a left inverse of the encoder: parsing a stringified value
followed by any non-digit-headed tail consumes exactly the encoding. -/
lemma parse_round_main : ∀ fuel : Nat,
    (∀ (v : Json) (rest : List Char), jsonFuel v ≤ fuel → noDigitHead rest →
      parseVal fuel (strfJson v ++ rest) = some (v, rest)) ∧
    (∀ (xs : List Json) (rest : List Char), xs ≠ [] →
      jsonFuelElems xs ≤ fuel →
      parseElems fuel (strfElems xs ++ ']' :: rest) = some (xs, rest)) ∧
    (∀ (ms : List (String × Json)) (rest : List Char), ms ≠ [] →
      jsonFuelMembers ms ≤ fuel →
      parseMembers fuel (strfMembers ms ++ '}' :: rest) = some (ms, rest)) := by
  intro fuel
  induction fuel with
  | zero =>
      refine ⟨fun v rest hle _ => absurd hle (by have := jsonFuel_pos v; omega),
        fun xs rest hne hle => ?_, fun ms rest hne hle => ?_⟩
      · cases xs with
        | nil => exact absurd rfl hne
        | cons x xs =>
            have := jsonFuel_pos x
            simp only [jsonFuelElems] at hle
            omega
      · cases ms with
        | nil => exact absurd rfl hne
        | cons m ms =>
            obtain ⟨k, v⟩ := m
            have := jsonFuel_pos v
            simp only [jsonFuelMembers] at hle
            omega
  | succ f ih =>
      obtain ⟨ihP, ihE, ihM⟩ := ih
      refine ⟨fun v rest hle hrest => ?_, fun xs rest hne hle => ?_,
        fun ms rest hne hle => ?_⟩
      · cases v with
        | null => simp [strfJson, parseVal]
        | bool b => cases b <;> simp [strfJson, parseVal]
        | num i =>
            obtain ⟨c, t, hct, hcd⟩ := intToChars_head i
            obtain ⟨h6, h5, h4, h3, h2, h1⟩ := numLead_ne c hcd
            rw [show strfJson (.num i) = intToChars i from rfl, hct,
              List.cons_append]
            simp only [parseVal, if_neg h1, if_neg h2, if_neg h3, if_neg h4,
              if_neg h5, if_neg h6]
            rw [← List.cons_append, ← hct]
            exact parseNumber_round i rest hrest
        | str s =>
            rw [show strfJson (.str s) ++ rest =
              '"' :: (escStr s.data ++ '"' :: rest) by simp [strfJson]]
            simp [parseVal, parseStr_round]
        | arr xs =>
            cases xs with
            | nil =>
                rw [show strfJson (.arr []) ++ rest = '[' :: ']' :: rest by
                  simp [strfJson, strfElems]]
                simp [parseVal]
            | cons x xs' =>
                have hb : jsonFuelElems (x :: xs') ≤ f := by
                  simp only [jsonFuel] at hle; omega
                have hE := ihE (x :: xs') rest (by simp) hb
                obtain ⟨c, t, hct, hcb, _⟩ := strfJson_head_ne_bracket x
                obtain ⟨T, hT⟩ := strfElems_cons x xs'
                rw [show strfJson (.arr (x :: xs')) ++ rest =
                  '[' :: (strfElems (x :: xs') ++ ']' :: rest) by
                    simp [strfJson]]
                simp [parseVal]
                split
                · rename_i heq
                  rw [hT, hct, List.cons_append, List.cons_append] at heq
                  injection heq with hc _
                  exact absurd hc hcb
                · rw [hE]
        | obj ms =>
            cases ms with
            | nil =>
                rw [show strfJson (.obj []) ++ rest = '{' :: '}' :: rest by
                  simp [strfJson, strfMembers]]
                simp [parseVal]
            | cons m ms' =>
                obtain ⟨k, v⟩ := m
                have hb : jsonFuelMembers ((k, v) :: ms') ≤ f := by
                  simp only [jsonFuel] at hle; omega
                have hM := ihM ((k, v) :: ms') rest (by simp) hb
                obtain ⟨T, hT⟩ := strfMembers_head k v ms'
                rw [show strfJson (.obj ((k, v) :: ms')) ++ rest =
                  '{' :: (strfMembers ((k, v) :: ms') ++ '}' :: rest) by
                    simp [strfJson]]
                simp [parseVal]
                split
                · rename_i heq
                  rw [hT, List.cons_append] at heq
                  injection heq with hc _
                  exact absurd hc (by decide)
                · rw [hM]
      · cases xs with
        | nil => exact absurd rfl hne
        | cons x xs' =>
            cases xs' with
            | nil =>
                have hb : jsonFuel x ≤ f := by
                  simp only [jsonFuelElems] at hle; omega
                have hP := ihP x (']' :: rest) hb (noDigitHead_rb rest)
                simp only [parseElems]
                rw [show strfElems [x] = strfJson x from rfl, hP]
                simp
            | cons y ys =>
                have hb1 : jsonFuel x ≤ f := by
                  simp only [jsonFuelElems] at hle; omega
                have hb2 : jsonFuelElems (y :: ys) ≤ f := by
                  simp only [jsonFuelElems] at hle ⊢; omega
                have hP := ihP x (',' :: (strfElems (y :: ys) ++ ']' :: rest))
                  hb1 (noDigitHead_comma _)
                have hE' := ihE (y :: ys) rest (by simp) hb2
                simp only [parseElems]
                rw [show strfElems (x :: y :: ys) ++ ']' :: rest =
                  strfJson x ++ (',' :: (strfElems (y :: ys) ++ ']' :: rest)) by
                    simp [strfElems]]
                rw [hP]
                simp [hE']
      · cases ms with
        | nil => exact absurd rfl hne
        | cons m ms' =>
            obtain ⟨k, v⟩ := m
            cases ms' with
            | nil =>
                have hb : jsonFuel v ≤ f := by
                  simp only [jsonFuelMembers] at hle; omega
                have hP := ihP v ('}' :: rest) hb (noDigitHead_rc rest)
                simp only [parseMembers]
                rw [show strfMembers [(k, v)] ++ '}' :: rest =
                  '"' :: (escStr k.data ++ '"' ::
                    (':' :: (strfJson v ++ '}' :: rest))) by
                    simp [strfMembers]]
                simp only [List.cons_append]
                rw [show (escStr k.data ++ '"' ::
                    (':' :: (strfJson v ++ '}' :: rest))) =
                  (escStr k.data ++ '"' ::
                    (':' :: (strfJson v ++ '}' :: rest))) from rfl]
                simp [parseStr_round, hP]
            | cons m2 ms'' =>
                have hb1 : jsonFuel v ≤ f := by
                  simp only [jsonFuelMembers] at hle; omega
                have hb2 : jsonFuelMembers (m2 :: ms'') ≤ f := by
                  simp only [jsonFuelMembers] at hle ⊢; omega
                have hP := ihP v
                  (',' :: (strfMembers (m2 :: ms'') ++ '}' :: rest))
                  hb1 (noDigitHead_comma _)
                have hM' := ihM (m2 :: ms'') rest (by simp) hb2
                simp only [parseMembers]
                rw [show strfMembers ((k, v) :: m2 :: ms'') ++ '}' :: rest =
                  '"' :: (escStr k.data ++ '"' :: (':' :: (strfJson v ++
                    ',' :: (strfMembers (m2 :: ms'') ++ '}' :: rest)))) by
                    simp [strfMembers]]
                simp [parseStr_round, hP, hM']

/-- The encoder output is at least as long as the fuel the parser needs. -/
lemma jsonFuel_le_aux : ∀ n : Nat,
    (∀ v : Json, jsonFuel v ≤ n → jsonFuel v ≤ (strfJson v).length) ∧
    (∀ xs : List Json, jsonFuelElems xs ≤ n →
      jsonFuelElems xs ≤ (strfElems xs).length + 1) ∧
    (∀ ms : List (String × Json), jsonFuelMembers ms ≤ n →
      jsonFuelMembers ms ≤ (strfMembers ms).length + 1) := by
  intro n
  induction n with
  | zero =>
      refine ⟨fun v hle => absurd hle (by have := jsonFuel_pos v; omega),
        fun xs hle => ?_, fun ms hle => ?_⟩
      · cases xs with
        | nil => simp [jsonFuelMembers, jsonFuelElems]
        | cons x xs =>
            have := jsonFuel_pos x
            simp only [jsonFuelElems] at hle
            omega
      · cases ms with
        | nil => simp [jsonFuelMembers]
        | cons m ms =>
            obtain ⟨k, v⟩ := m
            have := jsonFuel_pos v
            simp only [jsonFuelMembers] at hle
            omega
  | succ n ih =>
      obtain ⟨ihP, ihE, ihM⟩ := ih
      refine ⟨fun v hle => ?_, fun xs hle => ?_, fun ms hle => ?_⟩
      · cases v with
        | null => simp [jsonFuel, strfJson]
        | bool b => cases b <;> simp [jsonFuel, strfJson]
        | num i =>
            have : intToChars i ≠ [] := by
              obtain ⟨c, t, hct, _⟩ := intToChars_head i
              simp [hct]
            simp only [jsonFuel, strfJson]
            cases h : intToChars i with
            | nil => exact absurd h this
            | cons c t => simp
        | str s => simp [jsonFuel, strfJson]
        | arr xs =>
            have hb : jsonFuelElems xs ≤ n := by
              simp only [jsonFuel] at hle; omega
            have := ihE xs hb
            simp only [jsonFuel, strfJson]
            simp
            omega
        | obj ms =>
            have hb : jsonFuelMembers ms ≤ n := by
              simp only [jsonFuel] at hle; omega
            have := ihM ms hb
            simp only [jsonFuel, strfJson]
            simp
            omega
      · cases xs with
        | nil => simp [jsonFuelElems]
        | cons x xs' =>
            have hb1 : jsonFuel x ≤ n := by
              simp only [jsonFuelElems] at hle; omega
            have hb2 : jsonFuelElems xs' ≤ n := by
              cases xs' with
              | nil => simp [jsonFuelElems]
              | cons y ys =>
                  simp only [jsonFuelElems] at hle ⊢
                  omega
            have h1 := ihP x hb1
            have h2 := ihE xs' hb2
            cases xs' with
            | nil =>
                simp only [jsonFuelElems, strfElems, jsonFuelElems] at *
                omega
            | cons y ys =>
                simp only [jsonFuelElems, strfElems] at *
                simp at *
                omega
      · cases ms with
        | nil => simp [jsonFuelMembers]
        | cons m ms' =>
            obtain ⟨k, v⟩ := m
            have hb1 : jsonFuel v ≤ n := by
              simp only [jsonFuelMembers] at hle; omega
            have hb2 : jsonFuelMembers ms' ≤ n := by
              cases ms' with
              | nil => simp [jsonFuelMembers]
              | cons m2 ms'' =>
                  simp only [jsonFuelMembers] at hle ⊢
                  omega
            have h1 := ihP v hb1
            have h2 := ihM ms' hb2
            cases ms' with
            | nil =>
                simp only [jsonFuelMembers, strfMembers] at *
                simp at *
                omega
            | cons m2 ms'' =>
                simp only [jsonFuelMembers, strfMembers] at *
                simp at *
                omega

lemma jsonFuel_le_length (v : Json) : jsonFuel v ≤ (strfJson v).length :=
  (jsonFuel_le_aux (jsonFuel v)).1 v (Nat.le_refl _)

/-- Theorem: `JSON.parse` inverts `JSON.stringify` on every value of the model. -/
theorem JSONparse_JSONstringify (v : Json) :
    JSONparse (JSONstringify v) = some v := by
  have hfuel : jsonFuel v ≤ (strfJson v).length + 1 := by
    have := jsonFuel_le_length v
    omega
  have h := (parse_round_main ((strfJson v).length + 1)).1 v [] hfuel trivial
  rw [List.append_nil] at h
  unfold JSONparse JSONstringify
  rw [show (String.mk (strfJson v)).data = strfJson v from rfl, h]


/-- Source `json(data)` of the source: stringify the data, force
`Content-Type: application/json`, set the body, finalize. -/
def ResAccumulator.json (r : ResAccumulator) (data : Json) :
    Except String (ResAccumulator × ResponseM) :=
  r.jsonStr (JSONstringify data)

/-- The full effect of a successful `json(data)`. -/
lemma json_eq (r : ResAccumulator) (data : Json) (hf : r._finalized = false) :
    r.json data =
      .ok ({ r with
              _headers := hset r._headers "Content-Type" "application/json",
              _body := some (BodyInit.text (JSONstringify data)),
              _finalized := true },
           { status := r._status,
             headers := hset r._headers "Content-Type" "application/json",
             body := some (BodyInit.text (JSONstringify data)) }) := by
  simp [ResAccumulator.json, ResAccumulator.jsonStr, ResAccumulator.finalize,
    ResAccumulator.assertWritable, hf, Bind.bind, Except.bind, pure, Except.pure]

/-- C4: on a writable accumulator — whatever its prior headers, including a
`Content-Type` set via `type()` — `json(data)` succeeds, finalizes the
accumulator, the `Content-Type` header of the produced response is exactly
`application/json`, its body is the `JSON.stringify` text of `data`, and
parsing that body as JSON gives back a value structurally equal to `data`. -/
theorem C4_json_content_type_and_roundtrip (r : ResAccumulator) (d : Json)
    (h : r.isFinalized = false) :
    ∃ r' resp, r.json d = .ok (r', resp) ∧
      hget resp.headers "Content-Type" = some "application/json" ∧
      resp.body = some (BodyInit.text (JSONstringify d)) ∧
      JSONparse (JSONstringify d) = some d ∧
      r'.isFinalized = true := by
  have hf : r._finalized = false := h
  exact ⟨_, _, json_eq r d hf, by simp [hget_hset],
    rfl, JSONparse_JSONstringify d, rfl⟩

/-- Witness for C4: an accumulator whose `Content-Type` was previously set via
the `type` shorthand with text/html, sending an object with a boolean and a negative number. -/
theorem C4_json_content_type_and_roundtrip_witness :
    ∃ r' resp,
      ({ _headers := [("content-type", "text/html")] } : ResAccumulator).json
          (.obj [("success", .bool true), ("n", .num (-7))]) = .ok (r', resp) ∧
      hget resp.headers "Content-Type" = some "application/json" ∧
      resp.body = some (BodyInit.text (JSONstringify
        (.obj [("success", .bool true), ("n", .num (-7))]))) ∧
      JSONparse (JSONstringify
        (.obj [("success", .bool true), ("n", .num (-7))])) =
        some (.obj [("success", .bool true), ("n", .num (-7))]) ∧
      r'.isFinalized = true :=
  C4_json_content_type_and_roundtrip
    { _headers := [("content-type", "text/html")] }
    (.obj [("success", .bool true), ("n", .num (-7))]) (by decide)

/-! ### The URL / Request model (C7, C9)

`new URL(...)` is a platform primitive; it is modelled here for already
normalized absolute URLs as the inputs of the code are (scheme `://` host,
optional `:port`, path, optional `?query`, optional `#fragment`; no userinfo
and no percent-escapes, which none of the inputs in this repo use).  A
`URLSearchParams` is the ordered multi-map of `&`-separated `key=value`
pieces; `get` returns the first value for a key, `getAll` every value in
order. -/

/-- Split at the first occurrence of `sep` (the separator consumed); `none`
when absent. -/
def splitAtFirst (sep : Char) : List Char → Option (List Char × List Char)
  | [] => none
  | c :: rest =>
      if c = sep then some ([], rest)
      else (splitAtFirst sep rest).map (fun p => (c :: p.1, p.2))

/-- Split on every occurrence of `sep` (structural accumulator version). -/
def splitOnAux (sep : Char) : List Char → List Char → List (List Char)
  | [], acc => [acc.reverse]
  | c :: rest, acc =>
      if c = sep then acc.reverse :: splitOnAux sep rest []
      else splitOnAux sep rest (c :: acc)

/-- Split on every occurrence of `sep`. -/
def splitOn (sep : Char) (cs : List Char) : List (List Char) :=
  splitOnAux sep cs []

/-- Parse a query string into its ordered key/value pairs (empty pieces
dropped; a piece without `=` keeps an empty value, as `URLSearchParams`
does). -/
def parseQuery (q : List Char) : List (String × String) :=
  (splitOn '&' q).filterMap fun piece =>
    if piece = [] then none
    else
      match splitAtFirst '=' piece with
      | some (k, v) => some (String.mk k, String.mk v)
      | none => some (String.mk piece, "")

/-- Model of `URLSearchParams.get`: first value for the key, `null` when absent. -/
def spGet (q : List (String × String)) (k : String) : Option String :=
  (q.find? (fun p => p.1 == k)).map (·.2)

/-- Model of `URLSearchParams.getAll`: every value for the key, in insertion order. -/
def spGetAll (q : List (String × String)) (k : String) : List String :=
  (q.filter (fun p => p.1 == k)).map (·.2)

/-- Model of `URLSearchParams.has`. -/
def spHas (q : List (String × String)) (k : String) : Bool :=
  (q.find? (fun p => p.1 == k)).isSome

/-- The components of a parsed URL the code reads (`protocol` keeps the
trailing `:` exactly as `URL.protocol` does). -/
structure URLRec where
  protocol : String
  hostname : String
  pathname : String
  searchParams : List (String × String)
deriving DecidableEq, Repr

/-- Model of `new URL(s)` for a normalized absolute URL; `none` models the thrown
`TypeError` on malformed input. -/
def parseURL (s : String) : Option URLRec :=
  match splitAtFirst ':' s.data with
  | none => none
  | some (scheme, rest) =>
    if scheme = [] then none
    else
      match rest with
      | '/' :: '/' :: rest2 =>
        let auth := rest2.takeWhile (fun c => !(c == '/' || c == '?' || c == '#'))
        let after := rest2.dropWhile (fun c => !(c == '/' || c == '?' || c == '#'))
        let host := auth.takeWhile (fun c => !(c == ':'))
        if host = [] then none
        else
          let path := after.takeWhile (fun c => !(c == '?' || c == '#'))
          let afterPath := after.dropWhile (fun c => !(c == '?' || c == '#'))
          let search :=
            match afterPath with
            | '?' :: qs => qs.takeWhile (fun c => !(c == '#'))
            | _ => []
          some { protocol := String.mk (scheme ++ [':'])
                 hostname := String.mk host
                 pathname := if path = [] then "/" else String.mk path
                 searchParams := parseQuery search }
      | _ => none

/-- The incoming WHATWG `Request` as the code reads it: its URL string and its
`Headers` (names stored lower-cased, `get` case-insensitive). -/
structure RequestM where
  url : String
  headers : HeadersM
deriving DecidableEq

/-- JS `String.prototype.replace(':', '')`: drop the first colon. -/
def replaceFirstColon : List Char → List Char
  | [] => []
  | c :: rest => if c = ':' then rest else c :: replaceFirstColon rest

/-- The object `createRequestLike` returns (the `body`/`rawBody` extension
slots start absent). -/
structure RequestLike where
  raw : RequestM
  params : List (String × String)
  query : List (String × String)
  path : String
  hostname : String
  protocol : String
  originalUrl : String
  body : Option String := none
  rawBody : Option (List Nat) := none
deriving DecidableEq

/-- Source `createRequestLike(raw, params = {})`: parse the URL once, expose its
pieces; a URL parse failure propagates (as `none`). -/
def createRequestLike (raw : RequestM) (params : List (String × String)) :
    Option RequestLike :=
  (parseURL raw.url).map fun url =>
    { raw := raw
      params := params
      query := url.searchParams
      path := url.pathname
      hostname := url.hostname
      protocol := String.mk (replaceFirstColon url.protocol.data)
      originalUrl := raw.url }

/-- Request `get(name)`: `raw.headers.get(name.toLowerCase()) ?? null`
(the `Headers` lookup is itself case-insensitive). -/
def RequestLike.get (rl : RequestLike) (name : String) : Option String :=
  hget rl.raw.headers (lowerStr name)

/-- The middleware context: one request view and one response accumulator. -/
structure Context where
  req : RequestLike
  res : ResAccumulator

/-- Source `createContext(raw, params = {})`. -/
def createContext (raw : RequestM) (params : List (String × String)) :
    Option Context :=
  (createRequestLike raw params).map fun req => { req := req, res := {} }

/-- C7: for a request with URL
`https://example.com/users?sort=asc&limit=10` (whatever its headers and
params), the `path` of the view is `/users`, `hostname` is `example.com`,
`protocol` is `https` (scheme with the trailing `:` stripped), and the query
lookup of `sort` yields `asc`; for the query string `tag=js&tag=node`,
`getAll` of `tag` yields the ordered list of `js` then `node`; and for every request, the
header `get` of the view is case-insensitive: lookups of `content-type` and
`get('Content-Type')` agree. -/
theorem C7_request_view :
    (∀ (hs : HeadersM) (params : List (String × String)),
      ∃ rl, createRequestLike
          { url := "https://example.com/users?sort=asc&limit=10",
            headers := hs } params = some rl ∧
        rl.path = "/users" ∧ rl.hostname = "example.com" ∧
        rl.protocol = "https" ∧ spGet rl.query "sort" = some "asc") ∧
    (∀ (hs : HeadersM) (params : List (String × String)),
      ∃ rl, createRequestLike
          { url := "https://example.com/x?tag=js&tag=node",
            headers := hs } params = some rl ∧
        spGetAll rl.query "tag" = ["js", "node"]) ∧
    (∀ (req : RequestM) (params : List (String × String)) (rl : RequestLike),
      createRequestLike req params = some rl →
      rl.get "content-type" = rl.get "Content-Type") := by
  refine ⟨fun hs params => ?_, fun hs params => ?_,
    fun req params rl h => ?_⟩
  · exact ⟨{ raw := { url := "https://example.com/users?sort=asc&limit=10",
                      headers := hs },
             params := params,
             query := [("sort", "asc"), ("limit", "10")],
             path := "/users", hostname := "example.com", protocol := "https",
             originalUrl := "https://example.com/users?sort=asc&limit=10" },
           rfl, rfl, rfl, rfl, rfl⟩
  · exact ⟨{ raw := { url := "https://example.com/x?tag=js&tag=node",
                      headers := hs },
             params := params,
             query := [("tag", "js"), ("tag", "node")],
             path := "/x", hostname := "example.com", protocol := "https",
             originalUrl := "https://example.com/x?tag=js&tag=node" },
           rfl, rfl⟩
  · rw [createRequestLike, Option.map_eq_some'] at h
    obtain ⟨urec, hu, hrl⟩ := h
    subst hrl
    show hget req.headers (lowerStr "content-type") =
      hget req.headers (lowerStr "Content-Type")
    rw [show lowerStr "Content-Type" = lowerStr "content-type" by decide]

/-- Witness for C7: a concrete request carrying a `content-type` header. -/
theorem C7_request_view_witness :
    (∃ rl, createRequestLike
        { url := "https://example.com/users?sort=asc&limit=10",
          headers := [("content-type", "application/json")] } [] = some rl ∧
      rl.path = "/users" ∧ rl.hostname = "example.com" ∧
      rl.protocol = "https" ∧ spGet rl.query "sort" = some "asc") ∧
    (∃ rl, createRequestLike
        { url := "https://example.com/x?tag=js&tag=node",
          headers := [] } [] = some rl ∧
      spGetAll rl.query "tag" = ["js", "node"]) ∧
    RequestLike.get
        { raw := { url := "https://example.com/users?sort=asc&limit=10",
                   headers := [("content-type", "application/json")] },
          params := [],
          query := [("sort", "asc"), ("limit", "10")],
          path := "/users", hostname := "example.com", protocol := "https",
          originalUrl := "https://example.com/users?sort=asc&limit=10" }
        "content-type" =
      RequestLike.get
        { raw := { url := "https://example.com/users?sort=asc&limit=10",
                   headers := [("content-type", "application/json")] },
          params := [],
          query := [("sort", "asc"), ("limit", "10")],
          path := "/users", hostname := "example.com", protocol := "https",
          originalUrl := "https://example.com/users?sort=asc&limit=10" }
        "Content-Type" := by
  refine ⟨C7_request_view.1 [("content-type", "application/json")] [],
    C7_request_view.2.1 [] [], ?_⟩
  exact C7_request_view.2.2
    { url := "https://example.com/users?sort=asc&limit=10",
      headers := [("content-type", "application/json")] } [] _ rfl

/-- C9: a freshly constructed accumulator reports status 200 and has no
headers; consequently `createContext` of a request with an `id` param of `123` yields a context
whose `req.params` maps `id` to `123` and whose `res.getStatus()` is 200. -/
theorem C9_defaults_and_createContext :
    (({} : ResAccumulator).getStatus = 200) ∧
    (∀ name, ({} : ResAccumulator).getHeader name = none) ∧
    (∀ hs : HeadersM, ∃ ctx, createContext
        { url := "https://example.com/path?q=test", headers := hs }
        [("id", "123")] = some ctx ∧
      spGet ctx.req.params "id" = some "123" ∧
      ctx.res.getStatus = 200) := by
  refine ⟨rfl, fun name => rfl, fun hs => ?_⟩
  exact ⟨{ req := { raw := { url := "https://example.com/path?q=test",
                             headers := hs },
                    params := [("id", "123")],
                    query := [("q", "test")],
                    path := "/path", hostname := "example.com",
                    protocol := "https",
                    originalUrl := "https://example.com/path?q=test" },
           res := {} },
         rfl, rfl, rfl⟩

/-- Witness for C9 at a concrete request with no headers. -/
theorem C9_defaults_and_createContext_witness :
    ∃ ctx, createContext
        { url := "https://example.com/path?q=test", headers := [] }
        [("id", "123")] = some ctx ∧
      spGet ctx.req.params "id" = some "123" ∧
      ctx.res.getStatus = 200 :=
  C9_defaults_and_createContext.2.2 []

/-! ### Object identity of `getHeaders()` (C8)

The pure model cannot see aliasing, so for C8 the live `Headers` objects are
put in a store indexed by `Nat` (an object is its index).  The accumulator
`_headers` field is the object at index `self`; line 138 of the source,
`getHeaders(): return new Headers(this._headers)`, allocates a fresh object
holding a copy of the entries and returns it. -/

/-- A store of live `Headers` objects. -/
abbrev HeaderStore : Type := List HeadersM

/-- Read the contents of a `Headers` object. -/
def storeRead (σ : HeaderStore) (id : Nat) : HeadersM :=
  σ[id]?.getD []

/-- Source `getHeaders()` at the store level: allocate a fresh `Headers` object
holding a copy of `this._headers` (the object at `self`) and return its
id. -/
def getHeadersAlloc (σ : HeaderStore) (self : Nat) : HeaderStore × Nat :=
  (σ ++ [storeRead σ self], σ.length)

/-- A caller calling `set` on a `Headers` object it holds (mutating the
collection `getHeaders()` returned). -/
def storeSet (σ : HeaderStore) (id : Nat) (n v : String) : HeaderStore :=
  σ.set id (hset (storeRead σ id) n v)

/-- C8: `getHeaders()` returns a collection independent of the internal
internal one: the returned object is a different object with equal entries,
and mutating it afterwards leaves the own `Headers` object of the accumulator —
and hence every `getHeader` read — unchanged. -/
theorem C8_getHeaders_independent (σ : HeaderStore) (self : Nat)
    (h : self < σ.length) (n v name : String) :
    (getHeadersAlloc σ self).2 ≠ self ∧
    storeRead (getHeadersAlloc σ self).1 (getHeadersAlloc σ self).2 =
      storeRead σ self ∧
    storeRead (storeSet (getHeadersAlloc σ self).1 (getHeadersAlloc σ self).2
        n v) self = storeRead σ self ∧
    ∀ r : ResAccumulator, r._headers = storeRead σ self →
      r.getHeader name =
        hget (storeRead (storeSet (getHeadersAlloc σ self).1
          (getHeadersAlloc σ self).2 n v) self) name := by
  have hne : σ.length ≠ self := Nat.ne_of_gt h
  have hread : storeRead (σ ++ [storeRead σ self]) self = storeRead σ self := by
    unfold storeRead
    rw [List.getElem?_append_left h]
  have halloc : storeRead (getHeadersAlloc σ self).1
      (getHeadersAlloc σ self).2 = storeRead σ self := by
    show storeRead (σ ++ [storeRead σ self]) σ.length = storeRead σ self
    unfold storeRead
    rw [List.getElem?_append_right (Nat.le_refl _)]
    simp
  have hmut : storeRead (storeSet (getHeadersAlloc σ self).1
      (getHeadersAlloc σ self).2 n v) self = storeRead σ self := by
    show storeRead ((σ ++ [storeRead σ self]).set σ.length _) self =
      storeRead σ self
    unfold storeRead
    rw [List.getElem?_set_ne hne]
    exact hread
  exact ⟨hne, halloc, hmut, fun r hr => by
    rw [ResAccumulator.getHeader, hr, hmut]⟩

/-- Witness for C8: a one-object store holding one header. -/
theorem C8_getHeaders_independent_witness :
    (getHeadersAlloc [[("content-type", "text/html")]] 0).2 ≠ 0 ∧
    storeRead (getHeadersAlloc [[("content-type", "text/html")]] 0).1
        (getHeadersAlloc [[("content-type", "text/html")]] 0).2 =
      storeRead [[("content-type", "text/html")]] 0 ∧
    storeRead (storeSet (getHeadersAlloc [[("content-type", "text/html")]] 0).1
        (getHeadersAlloc [[("content-type", "text/html")]] 0).2
        "Content-Type" "application/json") 0 =
      storeRead [[("content-type", "text/html")]] 0 := by
  have h := C8_getHeaders_independent [[("content-type", "text/html")]] 0
    (by decide) "Content-Type" "application/json" "Content-Type"
  exact ⟨h.1, h.2.1, h.2.2.1⟩

/-- Witness for C10: a previously set `X-Custom` header survives a redirect
with its value intact. -/
theorem C10_redirect_preserves_other_headers_witness :
    0 = 0 ∧
    ∃ r' resp,
      ({ _headers := [("x-custom", "value")] } : ResAccumulator).redirect
          "/away" none = .ok (r', resp) ∧
      hget resp.headers "X-Custom" =
        ({ _headers := [("x-custom", "value")] } : ResAccumulator).getHeader
          "X-Custom" :=
  ⟨rfl, C10_redirect_preserves_other_headers
    { _headers := [("x-custom", "value")] } "/away" none "X-Custom"
    (by decide) (by decide)⟩
